import Mathlib

/-!
Verification development for the `mt_train` language-identification trainer
(`src/mt_train/src/main.rs`).

Modelling conventions, used consistently below:
* `u32` arithmetic is `Nat` with an explicit `% 2 ^ 32` where wrapping matters
  (`murmurhash2`, the rolling n-gram window); bitwise ops are `Nat.lor`,
  `Nat.land`, `Nat.xor`, `>>>`.
* `f32` values are modelled as real numbers (`ℝ`); float rounding is outside
  the model, so `exp`, `sqrt`, `ln`, `/` are the exact real operations.
* Rust `HashMap<u32, f32>` feature vectors are modelled as association lists
  keyed in first-insertion order; all the trainer's uses of a feature map
  (iteration plus per-key accumulation of commutative `+` on `ℝ`) are
  insensitive to iteration order, so this canonical order loses nothing.
* The process-local random generator is modelled as an oracle passed in
  explicitly: `shuf n l` is the result of the (n+1)-st shuffle call and
  `pick n l` the index drawn by the (n+1)-st `choose_mut` call.
* `Vec<f32>` is `List ℝ`; `v[i]` reads are `List.getD i 0` (always guarded or
  in range at every use site modelled) and writes are `List.set`.
-/

namespace MtTrain

/-- Configuration for training (struct `TrainingConfig`). -/
structure TrainingConfig where
  learning_rate : ℝ
  epochs : Nat
  regularization : ℝ
  dimension : Nat
  train_test_split : ℝ
  batch_size : Nat
  early_stopping_patience : Nat
  samples_per_language : Nat

/-- Training example (struct `TrainingExample`). -/
structure TrainingExample where
  id : Nat
  lan_code : String
  sentence : String
  deriving DecidableEq, Inhabited, Repr

/-- Feature (enum `Feature`): ASCII n-gram window, raw codepoint, codepoint class. -/
inductive Feature where
  | AsciiNGram (ngram : Nat)
  | Unicode (chr : Char)
  | UnicodeClass (chr : Char)
  deriving DecidableEq, Repr

/-- Constant `SEED`. -/
def SEED : Nat := 3242157231

/-- Constant `BIGRAM_MASK = (1 << 16) - 1`. -/
def BIGRAM_MASK : Nat := 2 ^ 16 - 1

/-- Constant `TRIGRAM_MASK = (1 << 24) - 1`. -/
def TRIGRAM_MASK : Nat := 2 ^ 24 - 1

/-- One past the largest u32 value. -/
def U32 : Nat := 2 ^ 32

/-- Multiplication of `u32` values (`wrapping_mul`). -/
def u32mul (a b : Nat) : Nat := a * b % U32

/-- Function `murmurhash2`: the fixed-seed 32-bit avalanche mix.  Inputs are
u32 values (`< U32`); `^` is `Nat.xor`, `>>` is `>>>`, `wrapping_mul` is
`u32mul`. -/
def murmurhash2 (k seed : Nat) : Nat :=
  let M : Nat := 0x5bd1e995
  let k1 := u32mul k M
  let k2 := Nat.xor k1 (k1 >>> 24)
  let k3 := u32mul k2 M
  let h1 := u32mul seed M
  let h2 := Nat.xor h1 k3
  let h3 := Nat.xor h2 (h2 >>> 13)
  let h4 := u32mul h3 M
  Nat.xor h4 (h4 >>> 15)

/-- The sorted boundary table of `classify_codepoint`, with the named
Japanese/CJK range constants inlined (`JP_PUNCT_START = 0x3000`, … ,
`JP_HALFWIDTH_KATAKANA_END = 0xff90`). -/
def classifyTable : List Nat :=
  [160, 161, 171, 172, 173, 174, 187, 192, 196, 199, 200, 201, 202, 205, 214, 220, 223,
   224, 225, 226, 227, 228, 231, 232, 233, 234, 235, 236, 237, 238, 239, 242, 243, 244,
   245, 246, 249, 250, 251, 252, 333, 339,
   0x3000, 0x303f, 0x3040, 0x309f, 0x30a0, 0x30ff, 0x4e00, 0x9faf, 0xff61, 0xff90]

/-- Rust `slice::binary_search` (current std implementation: halving loop on
`[left, right)`, `mid = left + size / 2`), specialised to a `List Nat` table;
returns `Ok(mid)` collapsed with `Err(left)` through
`unwrap_or_else(|pos| pos)` exactly as `classify_codepoint` does. -/
def binSearch (t : List Nat) (c : Nat) (left right : Nat) : Nat :=
  if h : left < right then
    if t.getD (left + (right - left) / 2) 0 < c then
      binSearch t c (left + (right - left) / 2 + 1) right
    else if c < t.getD (left + (right - left) / 2) 0 then
      binSearch t c left (left + (right - left) / 2)
    else left + (right - left) / 2
  else left
termination_by right - left
decreasing_by
  all_goals omega

/-- Function `classify_codepoint`: binary search of `chr as u32` in the fixed
sorted table, an exact hit returning its index and a miss its insertion
position. -/
def classify_codepoint (chr : Char) : Nat :=
  binSearch classifyTable chr.toNat 0 classifyTable.length

/-- Method `Feature::to_hash`. -/
def Feature.to_hash : Feature → Nat
  | .AsciiNGram ngram => murmurhash2 ngram SEED
  | .Unicode chr => murmurhash2 (chr.toNat / 128) (Nat.xor SEED 2)
  | .UnicodeClass chr => murmurhash2 (classify_codepoint chr) (Nat.xor SEED 4)

/-- Rust `char::to_ascii_lowercase` on the codepoint: shifts only `A..Z`. -/
def asciiLower (c : Nat) : Nat := if 65 ≤ c ∧ c ≤ 90 then c + 32 else c

/-- Rust `char::is_alphanumeric` restricted to ASCII codepoints (the only
place `emit_tokens` tests it is inside the `chr.is_ascii()` branch, where the
Unicode property coincides with ASCII alphanumeric). -/
def isAlphanumAscii (c : Nat) : Bool :=
  (48 ≤ c && c ≤ 57) || (65 ≤ c && c ≤ 90) || (97 ≤ c && c ≤ 122)

/-- The tokenizer state at the top of the loop of `emit_tokens`:
`(prev, num_previous_ascii_chr)`, started at `(' ' as u32, 1)`. -/
def emitInit : Nat × Nat := (32, 1)

/-- One iteration of the character loop of `emit_tokens`: from state
`(prev, num_previous_ascii_chr)` and the next character, the new state and
the features given to the listener, in order.  The `n + 3` branch keeps the
counter unchanged exactly as the source's arm `3` does; counter values `≥ 4`
are the source's `unreachable!()` arm and never occur starting from
`emitInit` (`emitCounter_le_three`). -/
def emitStep (st : Nat × Nat) (chr : Char) : (Nat × Nat) × List Feature :=
  if chr.toNat < 128 then
    let code := asciiLower chr.toNat
    let prev1 := Nat.lor (st.1 * 256 % U32) code
    let step : List Feature × Nat :=
      match st.2 with
      | 0 => ([], 1)
      | 1 => ([Feature.AsciiNGram (Nat.land prev1 BIGRAM_MASK)], 2)
      | 2 => ([Feature.AsciiNGram (Nat.land prev1 BIGRAM_MASK),
               Feature.AsciiNGram (Nat.land prev1 TRIGRAM_MASK)], 3)
      | n + 3 => ([Feature.AsciiNGram (Nat.land prev1 BIGRAM_MASK),
                   Feature.AsciiNGram (Nat.land prev1 TRIGRAM_MASK),
                   Feature.AsciiNGram prev1], n + 3)
    ((if isAlphanumAscii chr.toNat then prev1 else 32, step.2), step.1)
  else
    ((st.1, 0), [Feature.Unicode chr, Feature.UnicodeClass chr])

/-- Folding `emitStep` over the text, accumulating the emitted features. -/
def emitFold (acc : (Nat × Nat) × List Feature) (chr : Char) : (Nat × Nat) × List Feature :=
  ((emitStep acc.1 chr).1, acc.2 ++ (emitStep acc.1 chr).2)

/-- Function `emit_tokens`: the full feature sequence of a text. -/
def emit_tokens (text : List Char) : List Feature :=
  (text.foldl emitFold (emitInit, [])).2

/-- Struct `LanguageDetectorTrainer` (the loader-only field `language_names`
and the `config` copy of scalar options are kept; `language_names` is used
only for diagnostics and is dropped from the model). -/
structure LanguageDetectorTrainer where
  language_codes : List String
  weights : List ℝ
  intercepts : List ℝ
  config : TrainingConfig

/-- The bucket of one feature: `feature.to_hash() % dimension as u32`
(`dimension` is well below `2 ^ 32` in every configuration, so the `as u32`
cast is the identity). -/
def bucketOf (cfg : TrainingConfig) (f : Feature) : Nat :=
  f.to_hash % cfg.dimension

/-- The buckets hit by a text, in first-occurrence order: the key set of the
`feature_counts` hash map built by `extract_features`. -/
def extractBuckets (T : LanguageDetectorTrainer) (text : List Char) : List Nat :=
  ((emit_tokens text).map (bucketOf T.config)).dedup

/-- `total_features`: how many features `emit_tokens` emitted. -/
def totalFeatures (text : List Char) : Nat := (emit_tokens text).length

/-- Method `extract_features`: per-bucket occurrence counts, then every count
scaled by `norm_factor = 1.0 / sqrt(total_features)` when any feature was
emitted.  The hash map is modelled as the association list keyed in
first-insertion order (see the header). -/
noncomputable def extract_features (T : LanguageDetectorTrainer) (text : List Char) :
    List (Nat × ℝ) :=
  let counts := (extractBuckets T text).map
    (fun b => (b, ((((emit_tokens text).map (bucketOf T.config)).count b : Nat) : ℝ)))
  if 0 < totalFeatures text then
    counts.map (fun p => (p.1, p.2 * (1 / Real.sqrt (totalFeatures text))))
  else counts

/-- Method `predict`: start from a copy of the intercepts; for every
`(bucket, count)` pair add `weights[bucket * num_langs + lang_idx] * count`
to each class score, skipping an index at or past `weights.len()` exactly as
the source's bound check does. -/
noncomputable def predict (T : LanguageDetectorTrainer) (features : List (Nat × ℝ)) :
    List ℝ :=
  features.foldl (fun scores bc =>
    scores.enum.map (fun is =>
      if bc.1 * T.language_codes.length + is.1 < T.weights.length then
        is.2 + T.weights.getD (bc.1 * T.language_codes.length + is.1) 0 * bc.2
      else is.2)) T.intercepts

/-- `predict` with the source's `weight_start + lang_idx < weights.len()`
bound check removed (reads past the end default to `0`): used to state that
under the model invariant the check never fires. -/
noncomputable def predict_nocheck (T : LanguageDetectorTrainer) (features : List (Nat × ℝ)) :
    List ℝ :=
  features.foldl (fun scores bc =>
    scores.enum.map (fun is =>
      is.2 + T.weights.getD (bc.1 * T.language_codes.length + is.1) 0 * bc.2)) T.intercepts

/-- The fold `scores.iter().fold(f32::NEG_INFINITY, |a, &b| a.max(b))`: for a
non-empty list this equals folding `max` from the head (the `[]` value is
irrelevant: `softmax` never reads it, its empty-input branch being forced by
`sum_exp = 0`). -/
def maxScore : List ℝ → ℝ
  | [] => 0
  | s :: rest => rest.foldl max s

/-- Associated function `softmax`: subtract the maximum, exponentiate,
normalise by the sum; uniform `1 / num_classes` when the sum of exponentials
is not strictly positive. -/
noncomputable def softmax (scores : List ℝ) : List ℝ :=
  let exp_scores := scores.map (fun s => Real.exp (s - maxScore scores))
  let sum_exp := exp_scores.sum
  if 0 < sum_exp then exp_scores.map (fun s => s / sum_exp)
  else List.replicate scores.length (1 / (scores.length : ℝ))

/-- The body of the weight loop of `train_step` for one `(bucket, count)`
pair and one enumerated probability `(lang_idx = k, prob = p)`: the guarded
`weights[weight_idx] -= learning_rate * (gradient + regularization * weight)`
update. -/
noncomputable def applyOne (cfg : TrainingConfig) (L target bucket : Nat) (count : ℝ)
    (k : Nat) (p : ℝ) (w : List ℝ) : List ℝ :=
  if bucket * L + k < w.length then
    w.set (bucket * L + k)
      (w.getD (bucket * L + k) 0 -
        cfg.learning_rate *
          ((if k = target then count * (p - 1) else count * p) +
            cfg.regularization * w.getD (bucket * L + k) 0))
  else w

/-- The inner loop `for (lang_idx, &prob) in probabilities.iter().enumerate()`
of the weight update, entered with `lang_idx = k`. -/
noncomputable def updateBucket (cfg : TrainingConfig) (L target bucket : Nat) (count : ℝ) :
    Nat → List ℝ → List ℝ → List ℝ
  | _, [], w => w
  | k, p :: ps, w =>
      updateBucket cfg L target bucket count (k + 1) ps (applyOne cfg L target bucket count k p w)

/-- The outer loop `for (&bucket, &feature_count) in &features` of the weight
update of `train_step`. -/
noncomputable def updateWeights (cfg : TrainingConfig) (L target : Nat) (probs : List ℝ)
    (features : List (Nat × ℝ)) (w : List ℝ) : List ℝ :=
  features.foldl (fun w bc => updateBucket cfg L target bc.1 bc.2 0 probs w) w

/-- The intercept loop of `train_step`:
`intercepts[lang_idx] -= learning_rate * gradient` per enumerated probability
(in every reachable state `lang_idx < intercepts.len()`, so `List.set`'s
out-of-range no-op is never the modelled behaviour). -/
noncomputable def updateIntercepts (cfg : TrainingConfig) (target : Nat) (probs : List ℝ)
    (ic : List ℝ) : List ℝ :=
  probs.enum.foldl (fun ic kp =>
    ic.set kp.1
      (ic.getD kp.1 0 -
        cfg.learning_rate * (if kp.1 = target then kp.2 - 1 else kp.2))) ic

/-- One iteration of the example loop of `train_step`, threading the trainer
and the `(total_loss, processed)` accumulators: unknown codes and empty
feature vectors leave everything unchanged (`continue`), otherwise loss is
`-ln(max(probabilities[target], 1e-10))` and weights and intercepts are
updated in place. -/
noncomputable def stepExample (acc : LanguageDetectorTrainer × ℝ × Nat)
    (ex : TrainingExample) : LanguageDetectorTrainer × ℝ × Nat :=
  match acc.1.language_codes.findIdx? (fun code => code = ex.lan_code) with
  | none => acc
  | some target =>
    let T := acc.1
    let features := extract_features T ex.sentence.data
    if features.isEmpty then acc
    else
      let probs := softmax (predict T features)
      let loss := -Real.log (max (probs.getD target 0) (1e-10 : ℝ))
      ({ T with
          weights := updateWeights T.config T.language_codes.length target probs features T.weights,
          intercepts := updateIntercepts T.config target probs T.intercepts },
        acc.2.1 + loss, acc.2.2 + 1)

/-- Method `train_step`: fold the example loop, then mean loss over the
processed examples (`0` if none). -/
noncomputable def train_step (T : LanguageDetectorTrainer)
    (examples : List TrainingExample) : LanguageDetectorTrainer × ℝ :=
  let r := examples.foldl stepExample (T, 0, 0)
  (r.1, if 0 < r.2.2 then r.2.1 / (r.2.2 : ℝ) else 0)

/-- The arg-max of `evaluate`:
`.enumerate().max_by(|(_, a), (_, b)| a.partial_cmp(b).unwrap_or(Equal))`,
then `.map(|(idx, _)| idx).unwrap_or(0)`.  `Iterator::max_by` keeps the
incumbent only when it compares `Greater`, so of several equal maxima the
LAST one survives; real comparison is total, so `unwrap_or(Equal)` never
fires in the model. -/
noncomputable def maxByStep (acc : Option (Nat × ℝ)) (p : Nat × ℝ) : Option (Nat × ℝ) :=
  match acc with
  | none => some p
  | some q => if q.2 > p.2 then some q else some p

noncomputable def argmaxLast (scores : List ℝ) : Nat :=
  match scores.enum.foldl maxByStep none with
  | some q => q.1
  | none => 0

/-- One iteration of the example loop of `evaluate`, threading
`(correct, total)`. -/
noncomputable def evalExample (T : LanguageDetectorTrainer) (ct : Nat × Nat)
    (ex : TrainingExample) : Nat × Nat :=
  match T.language_codes.findIdx? (fun code => code = ex.lan_code) with
  | none => ct
  | some target =>
    let features := extract_features T ex.sentence.data
    if features.isEmpty then ct
    else
      (if argmaxLast (predict T features) = target then ct.1 + 1 else ct.1, ct.2 + 1)

/-- Method `evaluate`: accuracy `correct / total` over the scoreable
examples, `0` when none was scoreable. -/
noncomputable def evaluate (T : LanguageDetectorTrainer)
    (test_data : List TrainingExample) : ℝ :=
  let ct := test_data.foldl (evalExample T) (0, 0)
  if 0 < ct.2 then (ct.1 : ℝ) / (ct.2 : ℝ) else 0

/-- The random choices `create_balanced_dataset` draws from the process-local
generator, as an oracle: `shuf n l` is what the (n+1)-st `shuffle` call turns
`l` into, `pick n l` the index the (n+1)-st `choose_mut` call selects. -/
structure RandOracle where
  shuf : Nat → List TrainingExample → List TrainingExample
  pick : Nat → List TrainingExample → Nat

/-- The oracle of a run whose shuffles return their input unchanged and whose
draws always pick index 0 (a legal behaviour of the real generator). -/
def idOracle : RandOracle where
  shuf := fun _ l => l
  pick := fun _ _ => 0

/-- The upsampling loop of `create_balanced_dataset`: starting from all
original examples, repeatedly push a randomly chosen clone of an ORIGINAL
example (`choose_mut` draws from the untouched group) until the target count
is reached.  Returns the grown list with the oracle counter after the loop. -/
def upsample (o : RandOracle) (g : List TrainingExample) (need : Nat) :
    List TrainingExample → Nat → List TrainingExample × Nat
  | cur, ctr =>
    if h : cur.length < need then
      upsample o g need (cur ++ [g.getD (o.pick ctr g) default]) (ctr + 1)
    else (cur, ctr)
termination_by cur => need - cur.length
decreasing_by
  simp
  omega

/-- The body of the per-language loop of `create_balanced_dataset` for one
code: skip codes with no data (`if let Some`), downsample by shuffle-truncate
when the group is large enough, upsample otherwise, and append the result to
the accumulator; the second component threads the oracle counter. -/
def processLang (T : LanguageDetectorTrainer) (o : RandOracle)
    (data : List TrainingExample) (acc : List TrainingExample × Nat) (c : String) :
    List TrainingExample × Nat :=
  let g := data.filter (fun ex => ex.lan_code = c)
  if g.isEmpty then acc
  else if T.config.samples_per_language ≤ g.length then
    (acc.1 ++ (o.shuf acc.2 g).take T.config.samples_per_language, acc.2 + 1)
  else
    let up := upsample o g T.config.samples_per_language g acc.2
    (acc.1 ++ up.1.take T.config.samples_per_language, up.2)

/-- Method `create_balanced_dataset`: group the data by language code
(`data.filter` preserves the original per-class order exactly as the grouping
loop's `push` does), loop over `self.language_codes`, and finally shuffle the
concatenation. -/
def create_balanced_dataset (T : LanguageDetectorTrainer) (o : RandOracle)
    (data : List TrainingExample) : List TrainingExample :=
  let r := T.language_codes.foldl (processLang T o data) ([], 0)
  o.shuf r.2 r.1

/-- The split point of `train`:
`(shuffled_data.len() as f32 * train_test_split) as usize`.  Rust's `as usize`
on a non-negative float truncates toward zero and saturates below at 0, which
on reals is `Int.toNat ∘ Int.floor`. -/
noncomputable def splitIdx (cfg : TrainingConfig) (n : Nat) : Nat :=
  (⌊(n : ℝ) * cfg.train_test_split⌋).toNat

/-- The `split_at(split_idx)` of `train` on the shuffled balanced data. -/
noncomputable def trainSplit (cfg : TrainingConfig) (shuffled : List TrainingExample) :
    List TrainingExample × List TrainingExample :=
  (shuffled.take (splitIdx cfg shuffled.length), shuffled.drop (splitIdx cfg shuffled.length))

/-- An example `train_step` and `evaluate` actually process: its code maps to
a class index and its feature vector is non-empty (the two skip conditions,
negated). -/
def trainable (T : LanguageDetectorTrainer) (ex : TrainingExample) : Bool :=
  (T.language_codes.findIdx? (fun code => code = ex.lan_code)).isSome &&
    !(extractBuckets T ex.sentence.data).isEmpty

/-- The number of scoreable examples `evaluate` classifies correctly: its
predicted class (the last-index arg-max) equals the example's class index. -/
noncomputable def correctCount (T : LanguageDetectorTrainer)
    (data : List TrainingExample) : Nat :=
  (data.filter (trainable T)).countP (fun ex =>
    decide (argmaxLast (predict T (extract_features T ex.sentence.data)) =
      (T.language_codes.findIdx? (fun code => code = ex.lan_code)).getD 0))

/-- The bound check of `predict` holds for every `(bucket, count)` pair of
the feature map and every class index the score loop enumerates: exactly
"the out-of-range branch is unreachable". -/
def predictGuardHolds (T : LanguageDetectorTrainer) (features : List (Nat × ℝ)) : Bool :=
  features.all (fun bc => (List.range T.intercepts.length).all
    (fun i => decide (bc.1 * T.language_codes.length + i < T.weights.length)))

/-- Modelled from the spec's words for claim C2 only: the rank (index in the
table) of the nearest boundary strictly below the query codepoint, `none`
when no boundary lies below it. -/
def specNearestBelowRank (c : Nat) : Option Nat :=
  ((classifyTable.enum.filter (fun p => decide (p.2 < c))).getLast?).map Prod.fst

/-- Modelled from the spec's words for claim C1 only: the arg-max with ties
broken by the FIRST-encountered index, as the claim states the tie rule (the
incumbent is kept when scores are equal). -/
noncomputable def specArgmaxFirst (scores : List ℝ) : Nat :=
  match scores.enum.foldl (fun acc p =>
      match acc with
      | none => some p
      | some q => if q.2 ≥ p.2 then some q else some p) none with
  | some q => q.1
  | none => 0

/-- Modelled from the spec's words for claim C1 only: `evaluate` exactly as
the claim states it — identical accounting, but with the arg-max ties broken
by the first-encountered index. -/
noncomputable def specEvaluateFirst (T : LanguageDetectorTrainer)
    (data : List TrainingExample) : ℝ :=
  let ct := data.foldl (fun ct ex =>
    match T.language_codes.findIdx? (fun code => code = ex.lan_code) with
    | none => ct
    | some target =>
      let features := extract_features T ex.sentence.data
      if features.isEmpty then ct
      else
        (if specArgmaxFirst (predict T features) = target then ct.1 + 1 else ct.1,
          ct.2 + 1)) ((0 : Nat), (0 : Nat))
  if 0 < ct.2 then (ct.1 : ℝ) / (ct.2 : ℝ) else 0

/-- The configuration `main` builds (`learning_rate: 0.01, epochs: 200, …`),
with the f32 literals as exact rationals in `ℝ`. -/
noncomputable def mainConfig : TrainingConfig where
  learning_rate := 1 / 100
  epochs := 200
  regularization := 1 / 1000
  dimension := 4096
  train_test_split := 4 / 5
  batch_size := 64
  early_stopping_patience := 20
  samples_per_language := 1000

/-- A concrete two-class trainer over a dimension-4 hash space with all-zero
parameters, used to instantiate hypotheses at concrete inputs. -/
noncomputable def enFrTrainer : LanguageDetectorTrainer where
  language_codes := ["en", "fr"]
  weights := List.replicate 8 0
  intercepts := [0, 0]
  config :=
    { learning_rate := 1 / 100
      epochs := 200
      regularization := 1 / 1000
      dimension := 4
      train_test_split := 4 / 5
      batch_size := 64
      early_stopping_patience := 20
      samples_per_language := 3 }

/-- A trainer whose class list holds only "en", used to exhibit the silent
drop of a corpus code absent from `language_codes`. -/
noncomputable def enOnlyTrainer : LanguageDetectorTrainer where
  language_codes := ["en"]
  weights := []
  intercepts := []
  config := enFrTrainer.config

theorem emitStep_counter_le (st : Nat × Nat) (chr : Char) (h : st.2 ≤ 3) :
    (emitStep st chr).1.2 ≤ 3 := by
  unfold emitStep
  split
  · rcases st with ⟨p, n⟩
    interval_cases n <;> simp
  · simp

theorem emitCounter_le_three (text : List Char) (acc : (Nat × Nat) × List Feature)
    (h : acc.1.2 ≤ 3) : (text.foldl emitFold acc).1.2 ≤ 3 := by
  induction text generalizing acc with
  | nil => exact h
  | cons c cs ih => exact ih _ (emitStep_counter_le _ _ h)

theorem getD_eq_get (t : List Nat) (i : Nat) (h : i < t.length) :
    t.getD i 0 = t[i] := by
  simp [List.getD_eq_getElem?_getD, List.getElem?_eq_getElem h]

theorem countP_split (t : List Nat) (c m : Nat) (hm : m ≤ t.length)
    (h1 : ∀ (i : Nat) (h : i < t.length), i < m → t[i] < c)
    (h2 : ∀ (i : Nat) (h : i < t.length), m ≤ i → ¬ t[i] < c) :
    t.countP (fun b => decide (b < c)) = m := by
  have hsplit : t.countP (fun b => decide (b < c)) =
      (t.take m).countP (fun b => decide (b < c)) +
        (t.drop m).countP (fun b => decide (b < c)) := by
    rw [← List.countP_append, List.take_append_drop]
  have htake : (t.take m).countP (fun b => decide (b < c)) = m := by
    have hlen : (t.take m).length = m := by
      rw [List.length_take]; omega
    have : ∀ a ∈ t.take m, (fun b => decide (b < c)) a = true := by
      intro a ha
      obtain ⟨⟨i, hi⟩, rfl⟩ := List.mem_iff_get.mp ha
      have hi3 : i < m := by
        have := hi; rw [hlen] at this; exact this
      have hi2 : i < t.length := lt_of_lt_of_le hi3 hm
      simp only [List.get_eq_getElem, List.getElem_take]
      simpa using h1 i hi2 hi3
    rw [List.countP_eq_length.mpr this, hlen]
  have hdrop : (t.drop m).countP (fun b => decide (b < c)) = 0 := by
    rw [List.countP_eq_zero]
    intro a ha
    obtain ⟨⟨i, hi⟩, rfl⟩ := List.mem_iff_get.mp ha
    have hi2 : m + i < t.length := by
      have := hi; rw [List.length_drop] at this; omega
    simp only [List.get_eq_getElem, List.getElem_drop]
    simpa using h2 (m + i) hi2 (Nat.le_add_right m i)
  omega

theorem binSearch_count (t : List Nat) (c : Nat) (hs : t.Sorted (· < ·)) :
    ∀ (n left right : Nat), right - left ≤ n → left ≤ right → right ≤ t.length →
    (∀ (i : Nat) (h : i < t.length), i < left → t[i] < c) →
    (∀ (i : Nat) (h : i < t.length), right ≤ i → ¬ t[i] < c) →
    binSearch t c left right = t.countP (fun b => decide (b < c)) := by
  have hpw : ∀ (i j : Nat) (hi : i < t.length) (hj : j < t.length), i < j → t[i] < t[j] := by
    intro i j hi hj hij
    exact List.pairwise_iff_getElem.mp hs i j hi hj hij
  intro n
  induction n with
  | zero =>
    intro left right hn hlr hr h1 h2
    have heq : left = right := by omega
    subst heq
    rw [binSearch]
    simp only [lt_irrefl, dite_false]
    exact (countP_split t c left hr h1 h2).symm
  | succ n ih =>
    intro left right hn hlr hr h1 h2
    rw [binSearch]
    by_cases hcmp : left < right
    · simp only [hcmp, dite_true]
      set mid := left + (right - left) / 2 with hmid
      have hmidlt : mid < right := by omega
      have hmidlen : mid < t.length := lt_of_lt_of_le hmidlt hr
      rw [getD_eq_get t mid hmidlen]
      by_cases hlt : t[mid] < c
      · simp only [hlt, if_true]
        apply ih (mid + 1) right (by omega) (by omega) hr
        · intro i h hi
          rcases Nat.lt_succ_iff_lt_or_eq.mp hi with hi2 | hi2
          · exact lt_trans (hpw i mid h hmidlen hi2) hlt
          · subst hi2; exact hlt
        · exact h2
      · simp only [hlt, if_false]
        by_cases hgt : c < t[mid]
        · simp only [hgt, if_true]
          apply ih left mid (by omega) (by omega) (le_of_lt hmidlen)
          · exact h1
          · intro i h hi
            rcases Nat.eq_or_lt_of_le hi with hi2 | hi2
            · subst hi2; omega
            · have := hpw mid i hmidlen h hi2
              omega
        · simp only [hgt, if_false]
          have heqv : t[mid] = c := by omega
          refine (countP_split t c mid (le_of_lt hmidlen) ?_ ?_).symm
          · intro i h hi
            have := hpw i mid h hmidlen hi
            omega
          · intro i h hi
            rcases Nat.eq_or_lt_of_le hi with hi2 | hi2
            · subst hi2; omega
            · have := hpw mid i hmidlen h hi2
              omega
    · simp only [hcmp, dite_false]
      have heq : left = right := by omega
      subst heq
      exact (countP_split t c left hr h1 (fun i h hi => h2 i h hi)).symm

theorem classifyTable_sorted : classifyTable.Sorted (· < ·) := by
  rw [classifyTable]
  decide

/-- Claim C2, counterexample: codepoint 162 matches no table entry; the
nearest boundary below it is 161, whose rank is 1; yet `classify_codepoint`
returns 2 (the insertion position), not 1 — so a non-matching codepoint does
NOT get the rank of the nearest boundary below it. -/
theorem C2_counterexample :
    ¬ (162 ∈ classifyTable) ∧ specNearestBelowRank 162 = some 1 ∧
      classify_codepoint (Char.ofNat 162) = 2 := by
  refine ⟨by decide, by decide, ?_⟩
  have : (Char.ofNat 162).toNat = 162 := by decide
  rw [classify_codepoint, this]
  rw [binSearch_count classifyTable 162 classifyTable_sorted (classifyTable.length) 0
    classifyTable.length (by omega) (by omega) le_rfl (by omega) (by intro i h hi; omega)]
  · decide

/-- Claim C2 (amended): for every Unicode codepoint, `classify_codepoint`
returns the insertion rank of the codepoint in the sorted boundary table — the
number of table entries strictly below it.  A codepoint exactly matching a
table entry therefore gets that entry's index, and every other codepoint gets
ONE MORE than the rank of the nearest boundary below it (0 when no boundary
lies below). -/
theorem C2_theorem (chr : Char) :
    classify_codepoint chr = classifyTable.countP (fun b => decide (b < chr.toNat)) := by
  rw [classify_codepoint]
  exact binSearch_count classifyTable chr.toNat classifyTable_sorted classifyTable.length 0
    classifyTable.length (by omega) (by omega) le_rfl (by omega) (by intro i h hi; omega)

/-- Claim C9: `extract_features` of the empty string is the empty map, and
`predict` of an empty feature map is exactly the intercept vector. -/
theorem C9_theorem (T : LanguageDetectorTrainer) :
    extract_features T "".data = [] ∧ predict T [] = T.intercepts := by
  constructor
  · simp [extract_features, extractBuckets, totalFeatures, emit_tokens]
  · rfl

theorem sum_map_div (l : List ℝ) (c : ℝ) : (l.map (fun x => x / c)).sum = l.sum / c := by
  induction l with
  | nil => simp
  | cons a t ih => simp [ih, add_div]

/-- Claim C5: on a non-empty score vector `softmax` subtracts the maximum
before exponentiating and normalises by the sum of exponentials, so every
entry is nonnegative and the entries sum to exactly 1 (exact in the real
model, "within floating-point tolerance" in f32); and whenever the sum of
exponentials is not strictly positive, `softmax` returns the uniform
distribution `1 / num_classes` instead of failing. -/
theorem C5_theorem (s : ℝ) (rest : List ℝ) :
    (∀ x ∈ softmax (s :: rest), 0 ≤ x) ∧
    (softmax (s :: rest)).sum = 1 ∧
    (∀ scores : List ℝ,
      ¬ 0 < (scores.map (fun v => Real.exp (v - maxScore scores))).sum →
        softmax scores = List.replicate scores.length (1 / (scores.length : ℝ))) := by
  have hpos : 0 < ((s :: rest).map (fun v => Real.exp (v - maxScore (s :: rest)))).sum := by
    simp only [List.map_cons, List.sum_cons]
    have h1 : 0 < Real.exp (s - maxScore (s :: rest)) := Real.exp_pos _
    have h2 : 0 ≤ (rest.map (fun v => Real.exp (v - maxScore (s :: rest)))).sum := by
      apply List.sum_nonneg
      intro x hx
      obtain ⟨y, _, rfl⟩ := List.mem_map.mp hx
      exact (Real.exp_pos _).le
    linarith
  refine ⟨?_, ?_, ?_⟩
  · intro x hx
    simp only [softmax] at hx
    rw [if_pos hpos] at hx
    obtain ⟨y, hy, rfl⟩ := List.mem_map.mp hx
    obtain ⟨z, _, rfl⟩ := List.mem_map.mp hy
    exact div_nonneg (Real.exp_pos _).le hpos.le
  · simp only [softmax]
    rw [if_pos hpos, sum_map_div, div_self (ne_of_gt hpos)]
  · intro scores h
    simp only [softmax]
    rw [if_neg h]

/-- Claim C8: `train` splits the shuffled balanced data so that the training
partition has exactly `⌊ratio * N⌋` examples (the mathematical floor of the
product, exact in the real model of f32) and the test partition the remaining
`N - ⌊ratio * N⌋`, the two partitions reassembling the shuffled data. -/
theorem C8_theorem (cfg : TrainingConfig) (shuffled : List TrainingExample)
    (h0 : 0 ≤ cfg.train_test_split) (h1 : cfg.train_test_split ≤ 1) :
    (trainSplit cfg shuffled).1.length =
      Nat.floor ((shuffled.length : ℝ) * cfg.train_test_split) ∧
    (trainSplit cfg shuffled).2.length =
      shuffled.length - Nat.floor ((shuffled.length : ℝ) * cfg.train_test_split) ∧
    (trainSplit cfg shuffled).1 ++ (trainSplit cfg shuffled).2 = shuffled := by
  have hsi : splitIdx cfg shuffled.length =
      Nat.floor ((shuffled.length : ℝ) * cfg.train_test_split) := by
    rw [splitIdx, Int.floor_toNat]
  have hle : Nat.floor ((shuffled.length : ℝ) * cfg.train_test_split) ≤ shuffled.length := by
    have hmul : (shuffled.length : ℝ) * cfg.train_test_split ≤ (shuffled.length : ℝ) := by
      nlinarith [Nat.cast_nonneg (α := ℝ) shuffled.length]
    calc Nat.floor ((shuffled.length : ℝ) * cfg.train_test_split)
        ≤ Nat.floor ((shuffled.length : ℝ)) := Nat.floor_le_floor hmul
      _ = shuffled.length := Nat.floor_natCast _
  refine ⟨?_, ?_, ?_⟩
  · simp only [trainSplit, List.length_take, hsi]
    omega
  · simp only [trainSplit, List.length_drop, hsi]
  · simp only [trainSplit, List.take_append_drop]

/-- Claim C8, witness: with the configured ratio 0.8 on a 10-element balanced
dataset the training partition has exactly `⌊0.8 * 10⌋ = 8` examples. -/
theorem C8_witness :
    (trainSplit mainConfig (List.replicate 10 (default : TrainingExample))).1.length = 8 := by
  have h := (C8_theorem mainConfig (List.replicate 10 (default : TrainingExample))
    (by rw [mainConfig]; norm_num) (by rw [mainConfig]; norm_num)).1
  rw [h, List.length_replicate]
  rw [show ((10 : Nat) : ℝ) * mainConfig.train_test_split = 8 by rw [mainConfig]; norm_num]
  exact_mod_cast Nat.floor_natCast 8

theorem predict_eq_nocheck (T : LanguageDetectorTrainer) (features : List (Nat × ℝ)) :
    predict T features = predict_nocheck T features := by
  rw [predict, predict_nocheck]
  have hfun : (fun (scores : List ℝ) (bc : Nat × ℝ) => scores.enum.map (fun is =>
        if bc.1 * T.language_codes.length + is.1 < T.weights.length then
          is.2 + T.weights.getD (bc.1 * T.language_codes.length + is.1) 0 * bc.2
        else is.2)) =
      (fun (scores : List ℝ) (bc : Nat × ℝ) => scores.enum.map (fun is =>
        is.2 + T.weights.getD (bc.1 * T.language_codes.length + is.1) 0 * bc.2)) := by
    funext scores bc
    apply List.map_congr_left
    intro is _
    by_cases h : bc.1 * T.language_codes.length + is.1 < T.weights.length
    · rw [if_pos h]
    · rw [if_neg h, List.getD_eq_default _ _ (le_of_not_lt h), zero_mul, add_zero]
  rw [hfun]

theorem extractBuckets_lt (T : LanguageDetectorTrainer) (text : List Char)
    (hdim : 0 < T.config.dimension) :
    ∀ b ∈ extractBuckets T text, b < T.config.dimension := by
  intro b hb
  rw [extractBuckets, List.mem_dedup] at hb
  obtain ⟨f, _, rfl⟩ := List.mem_map.mp hb
  exact Nat.mod_lt _ hdim

/-- Claim C7: with a positive dimension, every bucket emitted by
`extract_features` lies strictly below the dimension (the bucket being
`hash % dimension`); consequently, under the model invariant
(`weights.len() = dimension * num_classes` and the intercept vector of
class length), the out-of-range branch of `predict` is unreachable and
`predict` coincides with the checkless accumulation of every
`(bucket, weight)` contribution. -/
theorem C7_theorem (T : LanguageDetectorTrainer) (text : List Char)
    (hdim : 0 < T.config.dimension)
    (hw : T.weights.length = T.config.dimension * T.language_codes.length)
    (hic : T.intercepts.length = T.language_codes.length) :
    ((extractBuckets T text).all (fun b => decide (b < T.config.dimension))) = true ∧
    predictGuardHolds T (extract_features T text) = true ∧
    predict T (extract_features T text) = predict_nocheck T (extract_features T text) := by
  have hbuckets := extractBuckets_lt T text hdim
  have hfeat : ∀ p ∈ extract_features T text, p.1 ∈ extractBuckets T text := by
    intro p hp
    rw [extract_features] at hp
    rcases Nat.decLt 0 (totalFeatures text) with hlt | hlt
    · rw [if_neg (by omega)] at hp
      obtain ⟨b, hb, rfl⟩ := List.mem_map.mp hp
      exact hb
    · rw [if_pos hlt] at hp
      obtain ⟨q, hq, rfl⟩ := List.mem_map.mp hp
      obtain ⟨b, hb, rfl⟩ := List.mem_map.mp hq
      exact hb
  refine ⟨?_, ?_, predict_eq_nocheck T _⟩
  · rw [List.all_eq_true]
    intro b hb
    simpa using hbuckets b hb
  · rw [predictGuardHolds, List.all_eq_true]
    intro bc hbc
    rw [List.all_eq_true]
    intro i hi
    rw [List.mem_range, hic] at hi
    have hblt : bc.1 < T.config.dimension := hbuckets _ (hfeat bc hbc)
    rw [hw]
    simp only [decide_eq_true_eq]
    calc bc.1 * T.language_codes.length + i
        < bc.1 * T.language_codes.length + T.language_codes.length := by omega
      _ = (bc.1 + 1) * T.language_codes.length := by ring
      _ ≤ T.config.dimension * T.language_codes.length :=
          Nat.mul_le_mul_right _ (by omega)

/-- Claim C7, witness: the hypotheses hold of `enFrTrainer` and the claim
follows for the concrete text "ab". -/
theorem C7_witness :
    (0 < enFrTrainer.config.dimension) ∧
    (enFrTrainer.weights.length = enFrTrainer.config.dimension * enFrTrainer.language_codes.length) ∧
    (enFrTrainer.intercepts.length = enFrTrainer.language_codes.length) ∧
    (((extractBuckets enFrTrainer "ab".data).all
        (fun b => decide (b < enFrTrainer.config.dimension))) = true ∧
      predictGuardHolds enFrTrainer (extract_features enFrTrainer "ab".data) = true ∧
      predict enFrTrainer (extract_features enFrTrainer "ab".data) =
        predict_nocheck enFrTrainer (extract_features enFrTrainer "ab".data)) :=
  ⟨by simp [enFrTrainer], by simp [enFrTrainer], by simp [enFrTrainer],
    C7_theorem enFrTrainer "ab".data (by simp [enFrTrainer])
      (by simp [enFrTrainer]) (by simp [enFrTrainer])⟩

theorem asciiLower_lt (m : Nat) (hm : m < 128) : asciiLower m < 128 := by
  rw [asciiLower]
  split <;> omega

theorem blank_window_facts (m : Nat) (hm : m < 128) :
    Nat.lor 8192 m = 8192 + m ∧ Nat.land (8192 + m) BIGRAM_MASK = 8192 + m ∧
      Nat.land (8192 + m) TRIGRAM_MASK = 8192 + m := by
  interval_cases m <;> exact ⟨by decide, by decide, by decide⟩

/-- Claim C10: in `emit_tokens`, a non-alphanumeric ASCII character resets
the rolling window to the blank code while leaving the steady-state counter
at 3 (only a non-ASCII character zeroes the counter, and the scan starts with
counter 1 and a blank window); hence the ASCII character right after a space
in steady state still emits bigram, trigram and quadgram features — all three
windows being the blank byte 32 followed by the character — whereas the ASCII
character right after a non-ASCII character emits no n-gram feature at all. -/
theorem C10_theorem (prev w n : Nat) (a c u : Char)
    (ha : a.toNat < 128) (hna : isAlphanumAscii a.toNat = false)
    (hc : c.toNat < 128) (hcal : isAlphanumAscii c.toNat = true)
    (hu : 128 ≤ u.toNat) :
    (emitStep (prev, 3) a).1 = (32, 3) ∧
    emitInit = (32, 1) ∧
    (emitStep (32, 3) c).2 =
      [Feature.AsciiNGram (256 * 32 + asciiLower c.toNat),
       Feature.AsciiNGram (256 * 32 + asciiLower c.toNat),
       Feature.AsciiNGram (256 * 32 + asciiLower c.toNat)] ∧
    (256 * 32 + asciiLower c.toNat) / 256 = 32 ∧
    (emitStep (w, n) u).1.2 = 0 ∧
    (emitStep (w, 0) c).2 = [] := by
  have hlc : asciiLower c.toNat < 128 := asciiLower_lt _ hc
  obtain ⟨e1, e2, e3⟩ := blank_window_facts (asciiLower c.toNat) hlc
  refine ⟨?_, rfl, ?_, by omega, ?_, ?_⟩
  · simp [emitStep, ha, hna]
  · have h32 : (32 : Nat) * 256 % U32 = 8192 := by rw [U32]; norm_num
    simp only [emitStep, hc, if_pos, if_true]
    simp only [h32, e1, e2, e3]
  · have : ¬ u.toNat < 128 := by omega
    simp [emitStep, this]
  · simp [emitStep, hc]

/-- Claim C10, witness: the scenario at the concrete characters `' '`, `'d'`
and `'é'`, entered in the steady state reached after scanning "abc". -/
theorem C10_witness :
    ((' ' : Char).toNat < 128) ∧ (isAlphanumAscii (' ' : Char).toNat = false) ∧
    (('d' : Char).toNat < 128) ∧ (isAlphanumAscii ('d' : Char).toNat = true) ∧
    (128 ≤ ('é' : Char).toNat) ∧
    ((emitStep (1633837856, 3) ' ').1 = (32, 3) ∧
      emitInit = (32, 1) ∧
      (emitStep (32, 3) 'd').2 =
        [Feature.AsciiNGram (256 * 32 + asciiLower ('d' : Char).toNat),
         Feature.AsciiNGram (256 * 32 + asciiLower ('d' : Char).toNat),
         Feature.AsciiNGram (256 * 32 + asciiLower ('d' : Char).toNat)] ∧
      (256 * 32 + asciiLower ('d' : Char).toNat) / 256 = 32 ∧
      (emitStep (37, 5) 'é').1.2 = 0 ∧
      (emitStep (37, 0) 'd').2 = []) :=
  ⟨by decide, by decide, by decide, by decide, by decide,
    C10_theorem 1633837856 37 5 ' ' 'd' 'é' (by decide) (by decide) (by decide) (by decide)
      (by decide)⟩

theorem extract_features_eq_nil_iff (T : LanguageDetectorTrainer) (text : List Char) :
    extract_features T text = [] ↔ extractBuckets T text = [] := by
  rw [extract_features]
  split <;> simp [List.map_eq_nil]

theorem stepExample_skeleton (acc : LanguageDetectorTrainer × ℝ × Nat) (ex : TrainingExample) :
    (stepExample acc ex).1.language_codes = acc.1.language_codes ∧
      (stepExample acc ex).1.config = acc.1.config := by
  rw [stepExample]
  split
  · exact ⟨rfl, rfl⟩
  · by_cases hfe : (extract_features acc.1 ex.sentence.data).isEmpty = true
    · simp [hfe]
    · simp [hfe]

theorem trainable_congr (T Tv : LanguageDetectorTrainer) (ex : TrainingExample)
    (hc : Tv.language_codes = T.language_codes) (hcfg : Tv.config = T.config) :
    trainable Tv ex = trainable T ex := by
  rw [trainable, trainable, extractBuckets, extractBuckets, hc, hcfg]

theorem stepExample_skip (acc : LanguageDetectorTrainer × ℝ × Nat) (ex : TrainingExample)
    (h : trainable acc.1 ex = false) : stepExample acc ex = acc := by
  rw [trainable] at h
  cases hf : acc.1.language_codes.findIdx? (fun code => code = ex.lan_code) with
  | none => simp only [stepExample, hf]
  | some t =>
    rw [hf] at h
    simp only [Option.isSome_some, Bool.true_and, Bool.not_eq_false'] at h
    have hfe : (extract_features acc.1 ex.sentence.data).isEmpty = true := by
      rw [List.isEmpty_iff, extract_features_eq_nil_iff, ← List.isEmpty_iff]
      exact h
    simp only [stepExample, hf, hfe, if_true]

theorem stepExample_processed (acc : LanguageDetectorTrainer × ℝ × Nat) (ex : TrainingExample)
    (h : trainable acc.1 ex = true) : (stepExample acc ex).2.2 = acc.2.2 + 1 := by
  rw [trainable, Bool.and_eq_true] at h
  obtain ⟨h1, h2⟩ := h
  cases hf : acc.1.language_codes.findIdx? (fun code => code = ex.lan_code) with
  | none => rw [hf] at h1; simp at h1
  | some t =>
    have hfe : (extract_features acc.1 ex.sentence.data).isEmpty = false := by
      rw [Bool.not_eq_true'] at h2
      rw [List.isEmpty_eq_false, Ne, extract_features_eq_nil_iff, ← List.isEmpty_iff]
      simp [h2]
    simp only [stepExample, hf, hfe, if_false, Bool.false_eq_true]

theorem foldl_step_filter (T : LanguageDetectorTrainer) (batch : List TrainingExample) :
    ∀ acc : LanguageDetectorTrainer × ℝ × Nat,
      acc.1.language_codes = T.language_codes → acc.1.config = T.config →
      batch.foldl stepExample acc = (batch.filter (trainable T)).foldl stepExample acc ∧
      (batch.foldl stepExample acc).2.2 = acc.2.2 + (batch.filter (trainable T)).length := by
  induction batch with
  | nil => intro acc _ _; exact ⟨rfl, rfl⟩
  | cons ex rest ih =>
    intro acc hcodes hcfg
    have htr : trainable acc.1 ex = trainable T ex := trainable_congr T acc.1 ex hcodes hcfg
    cases h : trainable T ex with
    | false =>
      have hskip : stepExample acc ex = acc := stepExample_skip acc ex (htr.trans h)
      have : (ex :: rest).filter (trainable T) = rest.filter (trainable T) := by
        simp [List.filter_cons, h]
      rw [this, List.foldl_cons, hskip]
      exact ih acc hcodes hcfg
    | true =>
      have hsk := stepExample_skeleton acc ex
      have ih2 := ih (stepExample acc ex) (hsk.1.trans hcodes) (hsk.2.trans hcfg)
      have hfil : (ex :: rest).filter (trainable T) = ex :: rest.filter (trainable T) := by
        simp [List.filter_cons, h]
      constructor
      · rw [List.foldl_cons, hfil, List.foldl_cons]
        exact ih2.1
      · rw [List.foldl_cons, ih2.2, stepExample_processed acc ex (htr.trans h), hfil,
          List.length_cons]
        omega

/-- Claim C6: `train_step` skips — contributing nothing to the weights, the
intercepts, the loss or the processed count — every example with an unknown
language code and every example with an empty feature vector (neither is an
error: the fold over the batch equals the fold over the kept examples); the
processed count is exactly the number of kept examples, the returned loss is
the accumulated loss divided by that count, and it is 0 when nothing was
processed, the trainer then being returned unchanged. -/
theorem C6_theorem (T : LanguageDetectorTrainer) (batch : List TrainingExample) :
    train_step T batch = train_step T (batch.filter (trainable T)) ∧
    (batch.foldl stepExample (T, 0, 0)).2.2 = (batch.filter (trainable T)).length ∧
    (train_step T batch).2 =
      (if 0 < (batch.filter (trainable T)).length
       then (batch.foldl stepExample (T, 0, 0)).2.1 / ((batch.filter (trainable T)).length : ℝ)
       else 0) ∧
    ((batch.filter (trainable T)).length = 0 → train_step T batch = (T, 0)) := by
  obtain ⟨hfold, hcount⟩ := foldl_step_filter T batch (T, 0, 0) rfl rfl
  have hcount' : (batch.foldl stepExample (T, (0 : ℝ), (0 : Nat))).2.2 =
      (batch.filter (trainable T)).length := by
    rw [hcount]; simp
  refine ⟨?_, hcount', ?_, ?_⟩
  · rw [train_step, train_step, hfold]
  · have hdef : (train_step T batch).2 =
        (if 0 < (batch.foldl stepExample (T, 0, 0)).2.2
         then (batch.foldl stepExample (T, 0, 0)).2.1 /
           ((batch.foldl stepExample (T, 0, 0)).2.2 : ℝ)
         else 0) := rfl
    rw [hdef, hcount']
  · intro hzero
    have hnil : batch.filter (trainable T) = [] := List.length_eq_zero.mp hzero
    rw [train_step, hfold, hnil]
    simp

theorem getD_set_ne (w : List ℝ) (j i : Nat) (v : ℝ) (h : j ≠ i) :
    (w.set j v).getD i 0 = w.getD i 0 := by
  rw [List.getD_eq_getElem?_getD, List.getD_eq_getElem?_getD, List.getElem?_set_ne h]

theorem getD_set_self (w : List ℝ) (j : Nat) (v : ℝ) (h : j < w.length) :
    (w.set j v).getD j 0 = v := by
  rw [List.getD_eq_getElem?_getD, List.getElem?_set_eq h]
  rfl

theorem applyOne_length (cfg : TrainingConfig) (L target bucket : Nat) (count : ℝ)
    (k : Nat) (p : ℝ) (w : List ℝ) :
    (applyOne cfg L target bucket count k p w).length = w.length := by
  rw [applyOne]
  split <;> simp

theorem applyOne_getD_ne (cfg : TrainingConfig) (L target bucket : Nat) (count : ℝ)
    (k : Nat) (p : ℝ) (w : List ℝ) (i : Nat) (h : i ≠ bucket * L + k) :
    (applyOne cfg L target bucket count k p w).getD i 0 = w.getD i 0 := by
  rw [applyOne]
  split
  · exact getD_set_ne _ _ _ _ (Ne.symm h)
  · rfl

theorem applyOne_getD_self (cfg : TrainingConfig) (L target bucket : Nat) (count : ℝ)
    (k : Nat) (p : ℝ) (w : List ℝ) (h : bucket * L + k < w.length) :
    (applyOne cfg L target bucket count k p w).getD (bucket * L + k) 0 =
      w.getD (bucket * L + k) 0 -
        cfg.learning_rate *
          ((if k = target then count * (p - 1) else count * p) +
            cfg.regularization * w.getD (bucket * L + k) 0) := by
  rw [applyOne, if_pos h]
  exact getD_set_self _ _ _ h

theorem updateBucket_length (cfg : TrainingConfig) (L target bucket : Nat) (count : ℝ)
    (probs : List ℝ) : ∀ (k : Nat) (w : List ℝ),
    (updateBucket cfg L target bucket count k probs w).length = w.length := by
  induction probs with
  | nil => intro k w; rfl
  | cons p ps ih =>
    intro k w
    rw [updateBucket, ih, applyOne_length]

theorem updateBucket_getD_notin (cfg : TrainingConfig) (L target bucket : Nat) (count : ℝ)
    (probs : List ℝ) : ∀ (k : Nat) (w : List ℝ) (i : Nat),
    (∀ j, j < probs.length → i ≠ bucket * L + (k + j)) →
    (updateBucket cfg L target bucket count k probs w).getD i 0 = w.getD i 0 := by
  induction probs with
  | nil => intro k w i _; rfl
  | cons p ps ih =>
    intro k w i h
    rw [updateBucket]
    rw [ih (k + 1) _ i (fun j hj => by
      have := h (j + 1) (by simpa using Nat.succ_lt_succ hj)
      omega)]
    exact applyOne_getD_ne _ _ _ _ _ _ _ _ _ (by
      have := h 0 (by simp)
      omega)

theorem updateBucket_getD_in (cfg : TrainingConfig) (L target bucket : Nat) (count : ℝ)
    (probs : List ℝ) : ∀ (k : Nat) (w : List ℝ) (j : Nat), j < probs.length →
    bucket * L + (k + j) < w.length →
    (updateBucket cfg L target bucket count k probs w).getD (bucket * L + (k + j)) 0 =
      w.getD (bucket * L + (k + j)) 0 -
        cfg.learning_rate *
          ((if k + j = target then count * (probs.getD j 0 - 1) else count * probs.getD j 0) +
            cfg.regularization * w.getD (bucket * L + (k + j)) 0) := by
  induction probs with
  | nil => intro k w j hj _; simp at hj
  | cons p ps ih =>
    intro k w j hj hlen
    match j with
    | 0 =>
      rw [updateBucket]
      have hset : bucket * L + k < w.length := by simpa using hlen
      rw [updateBucket_getD_notin cfg L target bucket count ps (k + 1)
        (applyOne cfg L target bucket count k p w) (bucket * L + (k + 0))
        (fun j' hj' => by omega)]
      have := applyOne_getD_self cfg L target bucket count k p w hset
      simpa using this
    | j' + 1 =>
      rw [updateBucket]
      have hadd : k + (j' + 1) = k + 1 + j' := by omega
      rw [hadd] at hlen ⊢
      have hlen2 : bucket * L + (k + 1 + j') <
          (applyOne cfg L target bucket count k p w).length := by
        rw [applyOne_length]
        exact hlen
      rw [ih (k + 1) _ j' (by simpa using hj) hlen2]
      have hne : bucket * L + (k + 1 + j') ≠ bucket * L + k := by omega
      rw [applyOne_getD_ne cfg L target bucket count k p w _ hne, List.getD_cons_succ]

theorem updateWeights_cons (cfg : TrainingConfig) (L target : Nat) (probs : List ℝ)
    (bc : Nat × ℝ) (rest : List (Nat × ℝ)) (w : List ℝ) :
    updateWeights cfg L target probs (bc :: rest) w =
      updateWeights cfg L target probs rest
        (updateBucket cfg L target bc.1 bc.2 0 probs w) := rfl

theorem updateWeights_length (cfg : TrainingConfig) (L target : Nat) (probs : List ℝ)
    (features : List (Nat × ℝ)) : ∀ w : List ℝ,
    (updateWeights cfg L target probs features w).length = w.length := by
  induction features with
  | nil => intro w; rfl
  | cons bc rest ih =>
    intro w
    rw [updateWeights_cons, ih, updateBucket_length]

theorem updateWeights_getD_notin (cfg : TrainingConfig) (L target : Nat) (probs : List ℝ)
    (features : List (Nat × ℝ)) : ∀ (w : List ℝ) (i : Nat),
    (∀ bc ∈ features, ∀ j, j < probs.length → i ≠ bc.1 * L + j) →
    (updateWeights cfg L target probs features w).getD i 0 = w.getD i 0 := by
  induction features with
  | nil => intro w i _; rfl
  | cons bc rest ih =>
    intro w i h
    rw [updateWeights_cons]
    rw [ih _ i (fun bc' hbc' j hj => h bc' (List.mem_cons_of_mem _ hbc') j hj)]
    exact updateBucket_getD_notin cfg L target bc.1 bc.2 probs 0 w i
      (fun j hj => by simpa using h bc (List.mem_cons_self _ _) j hj)

theorem mul_add_ne_mul_add (L a b j jq : Nat) (hj : j < L) (hjq : jq < L) (hne : a ≠ b) :
    a * L + j ≠ b * L + jq := by
  intro he
  rcases Nat.lt_trichotomy a b with h | h | h
  · have : a * L + j < b * L + jq := by
      calc a * L + j < a * L + L := by omega
        _ = (a + 1) * L := by ring
        _ ≤ b * L := Nat.mul_le_mul_right _ h
        _ ≤ b * L + jq := by omega
    omega
  · exact hne h
  · have : b * L + jq < a * L + j := by
      calc b * L + jq < b * L + L := by omega
        _ = (b + 1) * L := by ring
        _ ≤ a * L := Nat.mul_le_mul_right _ h
        _ ≤ a * L + j := by omega
    omega

theorem updateWeights_getD_touched (cfg : TrainingConfig) (L target : Nat) (probs : List ℝ)
    (hp : probs.length = L) (features : List (Nat × ℝ)) :
    ∀ (w : List ℝ) (bc : Nat × ℝ) (j : Nat),
    (features.map Prod.fst).Nodup → bc ∈ features → j < probs.length →
    bc.1 * L + j < w.length →
    (updateWeights cfg L target probs features w).getD (bc.1 * L + j) 0 =
      w.getD (bc.1 * L + j) 0 -
        cfg.learning_rate *
          ((if j = target then bc.2 * (probs.getD j 0 - 1) else bc.2 * probs.getD j 0) +
            cfg.regularization * w.getD (bc.1 * L + j) 0) := by
  induction features with
  | nil => intro w bc j _ hmem _ _; simp at hmem
  | cons bc0 rest ih =>
    intro w bc j hnodup hmem hj hlen
    rw [List.map_cons, List.nodup_cons] at hnodup
    have hnd := hnodup
    rw [updateWeights_cons]
    rcases List.mem_cons.mp hmem with rfl | hmem'
    · rw [updateWeights_getD_notin cfg L target probs rest _ _ ?hnotin]
      · have := updateBucket_getD_in cfg L target bc.1 bc.2 probs 0 w j hj
          (by simpa using hlen)
        simpa using this
      case hnotin =>
        intro bc' hbc' jq hjq
        have hne : bc.1 ≠ bc'.1 := by
          intro he
          exact hnd.1 (he ▸ List.mem_map_of_mem Prod.fst hbc')
        exact mul_add_ne_mul_add L bc.1 bc'.1 j jq (hp ▸ hj) (hp ▸ hjq) hne
    · have hne : bc.1 ≠ bc0.1 := by
        intro he
        exact hnd.1 (he ▸ List.mem_map_of_mem Prod.fst hmem')
      have hlen2 : bc.1 * L + j < (updateBucket cfg L target bc0.1 bc0.2 0 probs w).length := by
        rw [updateBucket_length]
        exact hlen
      rw [ih _ bc j hnd.2 hmem' hj hlen2]
      rw [updateBucket_getD_notin cfg L target bc0.1 bc0.2 probs 0 w _
        (fun jq hjq => by
          simpa using mul_add_ne_mul_add L bc.1 bc0.1 j jq (hp ▸ hj) (hp ▸ hjq) hne)]

theorem extract_features_keys (T : LanguageDetectorTrainer) (text : List Char) :
    (extract_features T text).map Prod.fst = extractBuckets T text := by
  rw [extract_features]
  split
  · rw [List.map_map, List.map_map]
    exact List.map_id'' (fun b => rfl) _
  · rw [List.map_map]
    exact List.map_id'' (fun b => rfl) _

theorem extract_features_keys_nodup (T : LanguageDetectorTrainer) (text : List Char) :
    ((extract_features T text).map Prod.fst).Nodup := by
  rw [extract_features_keys, extractBuckets]
  exact List.nodup_dedup _

/-- Claim C3: the weight update of `train_step` for one processed example
changes only the weight-matrix entries `(bucket, class)` whose bucket appears
in that example's feature map — every entry of an untouched bucket keeps its
value — and applies the L2 regularisation term exactly there, the touched
entry becoming
`weight - learning_rate * (gradient + regularization * weight)`. -/
theorem C3_theorem (T : LanguageDetectorTrainer) (text : List Char) (target : Nat)
    (probs : List ℝ) (w : List ℝ)
    (hp : probs.length = T.language_codes.length)
    (hL : 0 < T.language_codes.length) :
    (updateWeights T.config T.language_codes.length target probs
        (extract_features T text) w).length = w.length ∧
    (∀ i, i < w.length →
      i / T.language_codes.length ∉ (extract_features T text).map Prod.fst →
      (updateWeights T.config T.language_codes.length target probs
          (extract_features T text) w).getD i 0 = w.getD i 0) ∧
    (∀ bc ∈ extract_features T text, ∀ j, j < T.language_codes.length →
      bc.1 * T.language_codes.length + j < w.length →
      (updateWeights T.config T.language_codes.length target probs
          (extract_features T text) w).getD (bc.1 * T.language_codes.length + j) 0 =
        w.getD (bc.1 * T.language_codes.length + j) 0 -
          T.config.learning_rate *
            ((if j = target then bc.2 * (probs.getD j 0 - 1) else bc.2 * probs.getD j 0) +
              T.config.regularization *
                w.getD (bc.1 * T.language_codes.length + j) 0)) := by
  set L := T.language_codes.length with hLdef
  refine ⟨updateWeights_length _ _ _ _ _ _, ?_, ?_⟩
  · intro i _ hout
    apply updateWeights_getD_notin
    intro bc hbc j hj he
    apply hout
    have hjL : j < L := hp ▸ hj
    have hdiv : i / L = bc.1 := by
      rw [he, Nat.add_comm, Nat.add_mul_div_right j bc.1 hL, Nat.div_eq_of_lt hjL,
        Nat.zero_add]
    rw [hdiv]
    exact List.mem_map_of_mem Prod.fst hbc
  · intro bc hbc j hj hlen
    exact updateWeights_getD_touched T.config L target probs hp (extract_features T text)
      w bc j (extract_features_keys_nodup T text) hbc (hp ▸ hj) hlen

/-- Claim C3, witness: the frame property instantiated at the concrete
two-class trainer, the text "ab", target class 0, uniform probabilities and
an all-zero 8-entry weight matrix. -/
theorem C3_witness :
    (([1 / 2, 1 / 2] : List ℝ).length = enFrTrainer.language_codes.length) ∧
    (0 < enFrTrainer.language_codes.length) ∧
    ((updateWeights enFrTrainer.config enFrTrainer.language_codes.length 0 [1 / 2, 1 / 2]
        (extract_features enFrTrainer "ab".data) (List.replicate 8 0)).length =
      (List.replicate 8 (0 : ℝ)).length ∧
    (∀ i, i < (List.replicate 8 (0 : ℝ)).length →
      i / enFrTrainer.language_codes.length ∉
        (extract_features enFrTrainer "ab".data).map Prod.fst →
      (updateWeights enFrTrainer.config enFrTrainer.language_codes.length 0 [1 / 2, 1 / 2]
          (extract_features enFrTrainer "ab".data) (List.replicate 8 0)).getD i 0 =
        (List.replicate 8 (0 : ℝ)).getD i 0) ∧
    (∀ bc ∈ extract_features enFrTrainer "ab".data, ∀ j,
      j < enFrTrainer.language_codes.length →
      bc.1 * enFrTrainer.language_codes.length + j < (List.replicate 8 (0 : ℝ)).length →
      (updateWeights enFrTrainer.config enFrTrainer.language_codes.length 0 [1 / 2, 1 / 2]
          (extract_features enFrTrainer "ab".data)
          (List.replicate 8 0)).getD (bc.1 * enFrTrainer.language_codes.length + j) 0 =
        (List.replicate 8 (0 : ℝ)).getD (bc.1 * enFrTrainer.language_codes.length + j) 0 -
          enFrTrainer.config.learning_rate *
            ((if j = 0 then bc.2 * (([1 / 2, 1 / 2] : List ℝ).getD j 0 - 1)
              else bc.2 * ([1 / 2, 1 / 2] : List ℝ).getD j 0) +
              enFrTrainer.config.regularization *
                (List.replicate 8 (0 : ℝ)).getD
                  (bc.1 * enFrTrainer.language_codes.length + j) 0))) :=
  ⟨by simp [enFrTrainer], by simp [enFrTrainer],
    C3_theorem enFrTrainer "ab".data 0 [1 / 2, 1 / 2] (List.replicate 8 0)
      (by simp [enFrTrainer]) (by simp [enFrTrainer])⟩

theorem maxFold_spec (xs : List ℝ) : ∀ (n : Nat) (q : Nat × ℝ),
    ∃ r : Nat × ℝ, (xs.enumFrom n).foldl maxByStep (some q) = some r ∧
      q.2 ≤ r.2 ∧
      (∀ j, j < xs.length → xs.getD j 0 ≤ r.2) ∧
      ((r = q ∧ ∀ j, j < xs.length → xs.getD j 0 < q.2) ∨
        (∃ j, j < xs.length ∧ r.1 = n + j ∧ r.2 = xs.getD j 0 ∧
          ∀ jq, j < jq → jq < xs.length → xs.getD jq 0 < r.2)) := by
  induction xs with
  | nil =>
    intro n q
    exact ⟨q, rfl, le_refl _, by simp, Or.inl ⟨rfl, by simp⟩⟩
  | cons x xs ih =>
    intro n q
    have hcons : (x :: xs).enumFrom n = (n, x) :: xs.enumFrom (n + 1) := rfl
    rw [hcons, List.foldl_cons]
    by_cases hqx : q.2 > x
    · have hstep : maxByStep (some q) (n, x) = some q := by
        rw [maxByStep]
        simp only [hqx, if_true]
      rw [hstep]
      obtain ⟨r, hr, hqr, hall, hdisj⟩ := ih (n + 1) q
      refine ⟨r, hr, hqr, ?_, ?_⟩
      · intro j hj
        match j with
        | 0 => simpa using le_trans (le_of_lt hqx) hqr
        | j' + 1 =>
          rw [List.getD_cons_succ]
          exact hall j' (by simpa using hj)
      · rcases hdisj with ⟨hrq, hstrict⟩ | ⟨j, hj, hidx, hval, hafter⟩
        · left
          refine ⟨hrq, ?_⟩
          intro j hj
          match j with
          | 0 => simpa using hqx
          | j' + 1 =>
            rw [List.getD_cons_succ]
            exact hstrict j' (by simpa using hj)
        · right
          refine ⟨j + 1, by simpa using hj, by omega, by simpa using hval, ?_⟩
          intro jq hjq hjq2
          match jq with
          | 0 => omega
          | jq' + 1 =>
            rw [List.getD_cons_succ]
            exact hafter jq' (by omega) (by simpa using hjq2)
    · have hstep : maxByStep (some q) (n, x) = some (n, x) := by
        rw [maxByStep]
        simp only [hqx, if_false]
      rw [hstep]
      have hxq : q.2 ≤ x := le_of_not_lt hqx
      obtain ⟨r, hr, hqr, hall, hdisj⟩ := ih (n + 1) (n, x)
      refine ⟨r, hr, le_trans hxq hqr, ?_, ?_⟩
      · intro j hj
        match j with
        | 0 => simpa using hqr
        | j' + 1 =>
          rw [List.getD_cons_succ]
          exact hall j' (by simpa using hj)
      · rcases hdisj with ⟨hrq, hstrict⟩ | ⟨j, hj, hidx, hval, hafter⟩
        · right
          refine ⟨0, by simp, by rw [hrq]; simp, by rw [hrq]; simp, ?_⟩
          intro jq hjq hjq2
          match jq with
          | jq' + 1 =>
            rw [List.getD_cons_succ]
            have := hstrict jq' (by simpa using hjq2)
            rw [hrq]
            simpa using this
        · right
          refine ⟨j + 1, by simpa using hj, by omega, by simpa using hval, ?_⟩
          intro jq hjq hjq2
          match jq with
          | 0 => omega
          | jq' + 1 =>
            rw [List.getD_cons_succ]
            exact hafter jq' (by omega) (by simpa using hjq2)

theorem argmaxLast_spec (s : ℝ) (rest : List ℝ) :
    argmaxLast (s :: rest) < (s :: rest).length ∧
    (∀ j, j < (s :: rest).length →
      (s :: rest).getD j 0 ≤ (s :: rest).getD (argmaxLast (s :: rest)) 0) ∧
    (∀ j, argmaxLast (s :: rest) < j → j < (s :: rest).length →
      (s :: rest).getD j 0 < (s :: rest).getD (argmaxLast (s :: rest)) 0) := by
  have henum : (s :: rest).enum = (0, s) :: rest.enumFrom 1 := rfl
  obtain ⟨r, hr, hqr, hall, hdisj⟩ := maxFold_spec rest 1 (0, s)
  have hfold : (s :: rest).enum.foldl maxByStep none = some r := by
    rw [henum, List.foldl_cons]
    exact hr
  have hidx : argmaxLast (s :: rest) = r.1 := by
    rw [argmaxLast, hfold]
  have hval : (s :: rest).getD r.1 0 = r.2 := by
    rcases hdisj with ⟨hrq, _⟩ | ⟨j, hj, hj1, hj2, _⟩
    · rw [hrq]
      simp
    · rw [hj1, Nat.add_comm 1 j, List.getD_cons_succ, hj2]
  have hlen : r.1 < (s :: rest).length := by
    rcases hdisj with ⟨hrq, _⟩ | ⟨j, hj, hj1, _, _⟩
    · rw [hrq]
      simp
    · rw [hj1]
      simp
      omega
  refine ⟨by rw [hidx]; exact hlen, ?_, ?_⟩
  · intro j hj
    rw [hidx, hval]
    match j with
    | 0 => simpa using hqr
    | j' + 1 =>
      rw [List.getD_cons_succ]
      exact hall j' (by simpa using hj)
  · intro j hjgt hjlt
    rw [hidx, hval]
    rw [hidx] at hjgt
    rcases hdisj with ⟨hrq, hstrict⟩ | ⟨j0, hj0, hj1, _, hafter⟩
    · have hr1 : r.1 = 0 := by rw [hrq]
      match j with
      | 0 => omega
      | j' + 1 =>
        rw [List.getD_cons_succ]
        have := hstrict j' (by simpa using hjlt)
        rw [hrq]
        exact this
    · match j with
      | 0 => omega
      | j' + 1 =>
        rw [List.getD_cons_succ]
        exact hafter j' (by omega) (by simpa using hjlt)

theorem evalExample_skip (T : LanguageDetectorTrainer) (ct : Nat × Nat)
    (ex : TrainingExample) (h : trainable T ex = false) : evalExample T ct ex = ct := by
  rw [trainable] at h
  cases hf : T.language_codes.findIdx? (fun code => code = ex.lan_code) with
  | none => simp only [evalExample, hf]
  | some t =>
    rw [hf] at h
    simp only [Option.isSome_some, Bool.true_and, Bool.not_eq_false'] at h
    have hfe : (extract_features T ex.sentence.data).isEmpty = true := by
      rw [List.isEmpty_iff, extract_features_eq_nil_iff, ← List.isEmpty_iff]
      exact h
    simp only [evalExample, hf, hfe, if_true]

theorem evalExample_hit (T : LanguageDetectorTrainer) (ct : Nat × Nat)
    (ex : TrainingExample) (h : trainable T ex = true) :
    evalExample T ct ex =
      ((if argmaxLast (predict T (extract_features T ex.sentence.data)) =
          (T.language_codes.findIdx? (fun code => code = ex.lan_code)).getD 0
        then ct.1 + 1 else ct.1), ct.2 + 1) := by
  rw [trainable, Bool.and_eq_true] at h
  obtain ⟨h1, h2⟩ := h
  cases hf : T.language_codes.findIdx? (fun code => code = ex.lan_code) with
  | none => rw [hf] at h1; simp at h1
  | some t =>
    have hfe : (extract_features T ex.sentence.data).isEmpty = false := by
      rw [Bool.not_eq_true'] at h2
      rw [List.isEmpty_eq_false, Ne, extract_features_eq_nil_iff, ← List.isEmpty_iff]
      simp [h2]
    simp only [evalExample, hf, hfe, if_false, Bool.false_eq_true, Option.getD_some]

theorem evalFold (T : LanguageDetectorTrainer) (data : List TrainingExample) :
    ∀ ct : Nat × Nat, data.foldl (evalExample T) ct =
      (ct.1 + correctCount T data, ct.2 + (data.filter (trainable T)).length) := by
  induction data with
  | nil => intro ct; simp [correctCount]
  | cons ex rest ih =>
    intro ct
    rw [List.foldl_cons]
    cases h : trainable T ex with
    | false =>
      rw [evalExample_skip T ct ex h, ih ct]
      have hfil : (ex :: rest).filter (trainable T) = rest.filter (trainable T) := by
        simp [List.filter_cons, h]
      have hcc : correctCount T (ex :: rest) = correctCount T rest := by
        rw [correctCount, correctCount, hfil]
      rw [hfil, hcc]
    | true =>
      rw [evalExample_hit T ct ex h, ih _]
      have hfil : (ex :: rest).filter (trainable T) = ex :: rest.filter (trainable T) := by
        simp [List.filter_cons, h]
      have hcc : correctCount T (ex :: rest) =
          correctCount T rest +
            (if argmaxLast (predict T (extract_features T ex.sentence.data)) =
                (T.language_codes.findIdx? (fun code => code = ex.lan_code)).getD 0
              then 1 else 0) := by
        rw [correctCount, correctCount, hfil, List.countP_cons]
        by_cases hpred : argmaxLast (predict T (extract_features T ex.sentence.data)) =
            (T.language_codes.findIdx? (fun code => code = ex.lan_code)).getD 0
        · simp [hpred]
        · simp [hpred]
      rw [hcc, hfil, List.length_cons]
      by_cases hpred : argmaxLast (predict T (extract_features T ex.sentence.data)) =
          (T.language_codes.findIdx? (fun code => code = ex.lan_code)).getD 0
      · simp only [hpred, if_true]
        refine congrArg₂ Prod.mk ?_ ?_ <;> omega
      · simp only [hpred, if_false]
        refine congrArg₂ Prod.mk ?_ ?_ <;> omega

/-- Claim C1 (amended): `evaluate` scores exactly the examples whose code
maps to a known class index and whose feature vector is non-empty, and
returns `correct / scoreable-total` (0 when no example was scoreable), the
predicted class being the arg-max of the score vector with ties broken by
the LAST-encountered index (`Iterator::max_by` keeps the later of equal
maxima): on a non-empty score vector the predicted index is in range, carries
a maximal score, and every strictly later index scores strictly less. -/
theorem C1_theorem (T : LanguageDetectorTrainer) (data : List TrainingExample) :
    evaluate T data =
      (if 0 < (data.filter (trainable T)).length
       then (correctCount T data : ℝ) / ((data.filter (trainable T)).length : ℝ)
       else 0) ∧
    (∀ (s : ℝ) (rest : List ℝ),
      argmaxLast (s :: rest) < (s :: rest).length ∧
      (∀ j, j < (s :: rest).length →
        (s :: rest).getD j 0 ≤ (s :: rest).getD (argmaxLast (s :: rest)) 0) ∧
      (∀ j, argmaxLast (s :: rest) < j → j < (s :: rest).length →
        (s :: rest).getD j 0 < (s :: rest).getD (argmaxLast (s :: rest)) 0)) := by
  constructor
  · have hdef : evaluate T data =
        (if 0 < (data.foldl (evalExample T) (0, 0)).2
         then ((data.foldl (evalExample T) (0, 0)).1 : ℝ) /
           ((data.foldl (evalExample T) (0, 0)).2 : ℝ)
         else 0) := rfl
    rw [hdef, evalFold T data (0, 0)]
    simp
  · intro s rest
    exact argmaxLast_spec s rest

theorem getD_replicate_zero (n i : Nat) : (List.replicate n (0 : ℝ)).getD i 0 = 0 := by
  rw [List.getD_eq_getElem?_getD, List.getElem?_replicate]
  split <;> rfl

theorem predict_zero_weights (T : LanguageDetectorTrainer) (features : List (Nat × ℝ))
    (hz : ∀ i, T.weights.getD i 0 = 0) : predict T features = T.intercepts := by
  rw [predict]
  have hstep : ∀ (scores : List ℝ) (bc : Nat × ℝ),
      scores.enum.map (fun is =>
        if bc.1 * T.language_codes.length + is.1 < T.weights.length then
          is.2 + T.weights.getD (bc.1 * T.language_codes.length + is.1) 0 * bc.2
        else is.2) = scores := by
    intro scores bc
    have hpt : ∀ is ∈ scores.enum,
        (if bc.1 * T.language_codes.length + is.1 < T.weights.length then
          is.2 + T.weights.getD (bc.1 * T.language_codes.length + is.1) 0 * bc.2
        else is.2) = is.2 := by
      intro is _
      split
      · rw [hz, zero_mul, add_zero]
      · rfl
    rw [List.map_congr_left hpt, List.enum_map_snd]
  induction features with
  | nil => rfl
  | cons bc rest ih =>
    simp only [List.foldl_cons]
    rw [hstep T.intercepts bc]
    exact ih

/-- Claim C1, counterexample: with all-zero parameters every example scores
`[0, 0]`, a tie.  `evaluate` (Rust `max_by`) predicts the LAST index 1 and
scores the "en" example (class 0) wrong, returning accuracy 0; the claim's
first-encountered tie-break predicts 0 and would return accuracy 1. -/
theorem C1_counterexample :
    evaluate enFrTrainer [⟨1, "en", "ab"⟩] = 0 ∧
    specEvaluateFirst enFrTrainer [⟨1, "en", "ab"⟩] = 1 ∧ (0 : ℝ) ≠ 1 := by
  have hz : ∀ i, enFrTrainer.weights.getD i 0 = 0 := fun i => getD_replicate_zero 8 i
  have hpredict : ∀ features, predict enFrTrainer features = [0, 0] :=
    fun features => predict_zero_weights enFrTrainer features hz
  have hfind : enFrTrainer.language_codes.findIdx?
      (fun code => code = ("en" : String)) = some 0 := by decide
  have hfe : (extract_features enFrTrainer "ab".data).isEmpty = false := by
    rw [List.isEmpty_eq_false, Ne, extract_features_eq_nil_iff]
    exact (by decide : ¬ extractBuckets enFrTrainer "ab".data = [])
  have hargl : argmaxLast [(0 : ℝ), 0] = 1 := by
    have henum : ([(0 : ℝ), 0]).enum = [(0, (0 : ℝ)), (1, 0)] := rfl
    rw [argmaxLast, henum]
    norm_num [maxByStep]
  have hargf : specArgmaxFirst [(0 : ℝ), 0] = 0 := by
    have henum : ([(0 : ℝ), 0]).enum = [(0, (0 : ℝ)), (1, 0)] := rfl
    rw [specArgmaxFirst, henum]
    norm_num
  refine ⟨?_, ?_, by norm_num⟩
  · have hdef : evaluate enFrTrainer [⟨1, "en", "ab"⟩] =
        (if 0 < (([⟨1, "en", "ab"⟩] : List TrainingExample).foldl
            (evalExample enFrTrainer) (0, 0)).2
         then ((([⟨1, "en", "ab"⟩] : List TrainingExample).foldl
            (evalExample enFrTrainer) (0, 0)).1 : ℝ) /
           ((([⟨1, "en", "ab"⟩] : List TrainingExample).foldl
            (evalExample enFrTrainer) (0, 0)).2 : ℝ)
         else 0) := rfl
    have hstep : ([⟨1, "en", "ab"⟩] : List TrainingExample).foldl
        (evalExample enFrTrainer) (0, 0) = (0, 1) := by
      rw [List.foldl_cons, List.foldl_nil]
      simp only [evalExample, hfind, hfe, hpredict, hargl]
      norm_num
    rw [hdef, hstep]
    norm_num
  · have hstep : ([⟨1, "en", "ab"⟩] : List TrainingExample).foldl
        (fun ct ex =>
          match enFrTrainer.language_codes.findIdx? (fun code => code = ex.lan_code) with
          | none => ct
          | some target =>
            let features := extract_features enFrTrainer ex.sentence.data
            if features.isEmpty then ct
            else
              (if specArgmaxFirst (predict enFrTrainer features) = target then ct.1 + 1
                else ct.1, ct.2 + 1)) ((0 : Nat), (0 : Nat)) = (1, 1) := by
      rw [List.foldl_cons, List.foldl_nil]
      simp only [hfind, hfe, hpredict, hargf]
      norm_num
    rw [specEvaluateFirst, hstep]
    norm_num

theorem upsample_spec (o : RandOracle) (g : List TrainingExample) (need : Nat)
    (hg : g ≠ []) (hpick : ∀ n l, l ≠ [] → o.pick n l < l.length) :
    ∀ (fuel : Nat) (cur : List TrainingExample) (ctr : Nat), need - cur.length ≤ fuel →
      (upsample o g need cur ctr).1.length = max cur.length need ∧
        ∀ x ∈ (upsample o g need cur ctr).1, x ∈ cur ∨ x ∈ g := by
  intro fuel
  induction fuel with
  | zero =>
    intro cur ctr hf
    rw [upsample]
    have hnl : ¬ cur.length < need := by omega
    rw [dif_neg hnl]
    exact ⟨by show cur.length = max cur.length need; omega, fun x hx => Or.inl hx⟩
  | succ fuel ih =>
    intro cur ctr hf
    rw [upsample]
    by_cases h : cur.length < need
    · rw [dif_pos h]
      have hlen2 : need - (cur ++ [g.getD (o.pick ctr g) default]).length ≤ fuel := by
        rw [List.length_append]
        simp only [List.length_cons, List.length_nil]
        omega
      obtain ⟨hl, hm⟩ := ih (cur ++ [g.getD (o.pick ctr g) default]) (ctr + 1) hlen2
      constructor
      · rw [hl, List.length_append]
        simp only [List.length_cons, List.length_nil]
        omega
      · intro x hx
        rcases hm x hx with hx2 | hx2
        · rcases List.mem_append.mp hx2 with h3 | h3
          · exact Or.inl h3
          · right
            have hp := hpick ctr g hg
            have hmemg : g.getD (o.pick ctr g) default ∈ g := by
              rw [List.getD_eq_getElem?_getD, List.getElem?_eq_getElem hp]
              exact List.getElem_mem hp
            rw [List.mem_singleton.mp h3]
            exact hmemg
        · exact Or.inr hx2
    · rw [dif_neg h]
      exact ⟨by show cur.length = max cur.length need; omega, fun x hx => Or.inl hx⟩

theorem processLang_spec (T : LanguageDetectorTrainer) (o : RandOracle)
    (data : List TrainingExample) (acc : List TrainingExample × Nat) (c : String)
    (hsh : ∀ n l, (o.shuf n l).Perm l)
    (hpick : ∀ n l, l ≠ [] → o.pick n l < l.length) :
    ∃ chunk ctr2, processLang T o data acc c = (acc.1 ++ chunk, ctr2) ∧
      chunk.length = (if (data.filter (fun ex => ex.lan_code = c)).isEmpty = true then 0
        else T.config.samples_per_language) ∧
      ∀ ex ∈ chunk, ex.lan_code = c := by
  simp only [processLang]
  by_cases hg : (data.filter (fun ex => ex.lan_code = c)).isEmpty = true
  · rw [if_pos hg]
    exact ⟨[], acc.2, by simp, by simp [hg], by simp⟩
  · rw [if_neg hg]
    have hgne : data.filter (fun ex => ex.lan_code = c) ≠ [] := fun hnil =>
      hg (by rw [hnil]; rfl)
    by_cases hd : T.config.samples_per_language ≤
        (data.filter (fun ex => ex.lan_code = c)).length
    · rw [if_pos hd]
      refine ⟨(o.shuf acc.2 (data.filter (fun ex => ex.lan_code = c))).take
        T.config.samples_per_language, acc.2 + 1, rfl, ?_, ?_⟩
      · rw [List.length_take, (hsh acc.2 (data.filter (fun ex => ex.lan_code = c))).length_eq,
          if_neg hg]
        omega
      · intro ex hex
        have hex2 := List.mem_of_mem_take hex
        have hex3 := ((hsh acc.2 (data.filter (fun ex => ex.lan_code = c))).mem_iff).mp hex2
        have := List.mem_filter.mp hex3
        simpa using this.2
    · rw [if_neg hd]
      obtain ⟨hlen, hmem⟩ := upsample_spec o (data.filter (fun ex => ex.lan_code = c))
        T.config.samples_per_language hgne hpick T.config.samples_per_language
        (data.filter (fun ex => ex.lan_code = c)) acc.2 (by omega)
      refine ⟨(upsample o (data.filter (fun ex => ex.lan_code = c))
          T.config.samples_per_language (data.filter (fun ex => ex.lan_code = c))
          acc.2).1.take T.config.samples_per_language,
        (upsample o (data.filter (fun ex => ex.lan_code = c))
          T.config.samples_per_language (data.filter (fun ex => ex.lan_code = c)) acc.2).2,
        rfl, ?_, ?_⟩
      · rw [List.length_take, hlen, if_neg hg]
        omega
      · intro ex hex
        have hex2 := List.mem_of_mem_take hex
        rcases hmem ex hex2 with h2 | h2 <;>
          simpa using (List.mem_filter.mp h2).2

theorem balanceFold_spec (T : LanguageDetectorTrainer) (o : RandOracle)
    (data : List TrainingExample)
    (hsh : ∀ n l, (o.shuf n l).Perm l)
    (hpick : ∀ n l, l ≠ [] → o.pick n l < l.length) :
    ∀ (cs : List String), cs.Nodup → ∀ acc : List TrainingExample × Nat,
      (∀ c : String,
        ((cs.foldl (processLang T o data) acc).1.filter
            (fun ex => ex.lan_code = c)).length =
          (acc.1.filter (fun ex => ex.lan_code = c)).length +
          (if c ∈ cs ∧ (data.filter (fun ex => ex.lan_code = c)).isEmpty = false
            then T.config.samples_per_language else 0)) ∧
      (cs.foldl (processLang T o data) acc).1.length =
        acc.1.length + T.config.samples_per_language *
          (cs.filter (fun c0 =>
            !(data.filter (fun ex => ex.lan_code = c0)).isEmpty)).length := by
  intro cs
  induction cs with
  | nil =>
    intro _ acc
    constructor
    · intro c
      simp
    · simp
  | cons c0 rest ih =>
    intro hnodup acc
    rw [List.nodup_cons] at hnodup
    obtain ⟨chunk, ctr2, hpl, hclen, hcmem⟩ := processLang_spec T o data acc c0 hsh hpick
    rw [List.foldl_cons, hpl]
    obtain ⟨iha, ihb⟩ := ih hnodup.2 (acc.1 ++ chunk, ctr2)
    constructor
    · intro c
      rw [iha c]
      rw [List.filter_append, List.length_append]
      by_cases hc : c = c0
      · subst hc
        have hall : chunk.filter (fun ex => ex.lan_code = c) = chunk := by
          rw [List.filter_eq_self]
          intro ex hex
          simpa using hcmem ex hex
        rw [hall]
        have hnotin : c ∉ rest := hnodup.1
        by_cases hpres : (data.filter (fun ex => ex.lan_code = c)).isEmpty = false
        · rw [if_neg (fun hand => hnotin hand.1),
            if_pos ⟨List.mem_cons_self _ _, hpres⟩, hclen,
            if_neg (by rw [hpres]; exact Bool.false_ne_true)]
          omega
        · have hempty : (data.filter (fun ex => ex.lan_code = c)).isEmpty = true := by
            revert hpres
            cases (data.filter (fun ex => ex.lan_code = c)).isEmpty <;> simp
          rw [hclen, if_pos hempty, if_neg (fun hand => hpres hand.2),
            if_neg (fun hand => hpres hand.2)]
      · have hnone : chunk.filter (fun ex => ex.lan_code = c) = [] := by
          rw [List.filter_eq_nil_iff]
          intro ex hex
          simp only [hcmem ex hex, decide_eq_true_eq]
          exact fun he => hc he.symm
        rw [hnone]
        have hiff : (c ∈ c0 :: rest ∧
            (data.filter (fun ex => ex.lan_code = c)).isEmpty = false) ↔
            (c ∈ rest ∧ (data.filter (fun ex => ex.lan_code = c)).isEmpty = false) := by
          constructor
          · rintro ⟨h1, h2⟩
            rcases List.mem_cons.mp h1 with h | h
            · exact absurd h hc
            · exact ⟨h, h2⟩
          · rintro ⟨h1, h2⟩
            exact ⟨List.mem_cons_of_mem _ h1, h2⟩
        rw [if_congr hiff rfl rfl]
        simp only [List.length_nil]
        omega
    · rw [ihb, List.length_append, List.filter_cons]
      by_cases hpres : (data.filter (fun ex => ex.lan_code = c0)).isEmpty = false
      · rw [if_pos (by rw [hpres]; rfl), List.length_cons, hclen,
          if_neg (by rw [hpres]; exact Bool.false_ne_true), Nat.mul_succ]
        omega
      · have hempty : (data.filter (fun ex => ex.lan_code = c0)).isEmpty = true := by
          revert hpres
          cases (data.filter (fun ex => ex.lan_code = c0)).isEmpty <;> simp
        rw [if_neg (by rw [hempty]; simp), hclen, if_pos hempty]
        omega

/-- Claim C4 (amended): for any run of the random generator, the balanced
output contains exactly `samples_per_language` examples of each language code
that is BOTH among the trainer's `language_codes` AND present in the input
corpus, and 0 examples of every other code; the total output size is
`samples_per_language × (number of the trainer's codes present in the data)`.
Codes with zero source examples are skipped silently. -/
theorem C4_theorem (T : LanguageDetectorTrainer) (o : RandOracle)
    (data : List TrainingExample) (c : String)
    (hnodup : T.language_codes.Nodup)
    (hsh : ∀ n l, (o.shuf n l).Perm l)
    (hpick : ∀ n l, l ≠ [] → o.pick n l < l.length) :
    ((create_balanced_dataset T o data).filter (fun ex => ex.lan_code = c)).length =
      (if c ∈ T.language_codes ∧
          (data.filter (fun ex => ex.lan_code = c)).isEmpty = false
        then T.config.samples_per_language else 0) ∧
    (create_balanced_dataset T o data).length =
      T.config.samples_per_language *
        (T.language_codes.filter (fun c0 =>
          !(data.filter (fun ex => ex.lan_code = c0)).isEmpty)).length := by
  obtain ⟨ha, hb⟩ := balanceFold_spec T o data hsh hpick T.language_codes hnodup ([], 0)
  have hdef : create_balanced_dataset T o data =
      o.shuf (T.language_codes.foldl (processLang T o data) ([], 0)).2
        (T.language_codes.foldl (processLang T o data) ([], 0)).1 := rfl
  have hperm := hsh (T.language_codes.foldl (processLang T o data) ([], 0)).2
    (T.language_codes.foldl (processLang T o data) ([], 0)).1
  constructor
  · rw [hdef, (hperm.filter _).length_eq, ha c]
    simp
  · rw [hdef, hperm.length_eq, hb]
    simp

/-- Claim C4, counterexample: the corpus holds one "fr" example and the
trainer's class list is `["en"]`; "fr" is present in the input corpus, yet
the balanced output holds 0 "fr" examples, not `samples_per_language = 3` —
the loop runs over `self.language_codes`, not over the codes of the data. -/
theorem C4_counterexample :
    ((create_balanced_dataset enOnlyTrainer idOracle
        [⟨1, "fr", "bonjour"⟩]).filter (fun ex => ex.lan_code = "fr")).length = 0 ∧
    (([⟨1, "fr", "bonjour"⟩] : List TrainingExample).filter
        (fun ex => ex.lan_code = "fr")).isEmpty = false ∧
    enOnlyTrainer.config.samples_per_language = 3 ∧ (0 : Nat) ≠ 3 := by
  refine ⟨by decide, by decide, by decide, by decide⟩

/-- Claim C4, witness: a two-class trainer with target 3, a corpus with two
"en" rows (upsampled) and four "fr" rows (downsampled), under the identity
oracle. -/
theorem C4_witness :
    enFrTrainer.language_codes.Nodup ∧
    (∀ n l, (idOracle.shuf n l).Perm l) ∧
    (∀ n l, l ≠ [] → idOracle.pick n l < l.length) ∧
    (((create_balanced_dataset enFrTrainer idOracle
        [⟨1, "en", "aa"⟩, ⟨2, "en", "ab"⟩, ⟨3, "fr", "ba"⟩, ⟨4, "fr", "bb"⟩,
          ⟨5, "fr", "bc"⟩, ⟨6, "fr", "bd"⟩]).filter
        (fun ex => ex.lan_code = "en")).length =
      (if ("en" : String) ∈ enFrTrainer.language_codes ∧
          (([⟨1, "en", "aa"⟩, ⟨2, "en", "ab"⟩, ⟨3, "fr", "ba"⟩, ⟨4, "fr", "bb"⟩,
            ⟨5, "fr", "bc"⟩, ⟨6, "fr", "bd"⟩] : List TrainingExample).filter
            (fun ex => ex.lan_code = "en")).isEmpty = false
        then enFrTrainer.config.samples_per_language else 0) ∧
    (create_balanced_dataset enFrTrainer idOracle
        [⟨1, "en", "aa"⟩, ⟨2, "en", "ab"⟩, ⟨3, "fr", "ba"⟩, ⟨4, "fr", "bb"⟩,
          ⟨5, "fr", "bc"⟩, ⟨6, "fr", "bd"⟩]).length =
      enFrTrainer.config.samples_per_language *
        (enFrTrainer.language_codes.filter (fun c0 =>
          !(([⟨1, "en", "aa"⟩, ⟨2, "en", "ab"⟩, ⟨3, "fr", "ba"⟩, ⟨4, "fr", "bb"⟩,
            ⟨5, "fr", "bc"⟩, ⟨6, "fr", "bd"⟩] : List TrainingExample).filter
            (fun ex => ex.lan_code = c0)).isEmpty)).length) :=
  ⟨by decide, fun n l => List.Perm.refl l, fun n l hl => List.length_pos.mpr hl,
    C4_theorem enFrTrainer idOracle
      [⟨1, "en", "aa"⟩, ⟨2, "en", "ab"⟩, ⟨3, "fr", "ba"⟩, ⟨4, "fr", "bb"⟩,
        ⟨5, "fr", "bc"⟩, ⟨6, "fr", "bd"⟩] "en" (by decide)
      (fun n l => List.Perm.refl l) (fun n l hl => List.length_pos.mpr hl)⟩

end MtTrain
